import Mathlib

/-!
Verification of the kachina-installer update engine (TypeScript sources under
src/): the small-file range merger, the diff planner, the install-mode
selector, the retry loop, the merged-group result handling, the scheduler
threshold, and the remote package-index reader.

Machine numbers: the TypeScript code computes on JS numbers.  All quantities
involved are integers (manifest sizes, byte offsets, u32 fields), so they are
modelled as Nat in the data and as Int where the code subtracts.  The two
floating-point ratio tests, waste-ratio against 0.2 and the 80% threshold, are
modelled in exact rationals: for the integer magnitudes reachable here
(payload offsets below 2^32) the double-rounding error of the JS computation
is orders of magnitude smaller than the distance from any attainable ratio to
the comparison constant, so the exact-rational comparison coincides with the
JS one; the JS NaN outcome of 0/0 (which compares false) is modelled
explicitly in wasteRatioOkay.
-/

namespace Kachina

/-- Pair of optional hash digests, as in the manifest's from/to records
(TypeScript: Omit of DfsMetadataHashInfo without file_name). -/
structure HashPair where
  md5 : Option String
  xxh : Option String
deriving Repr, DecidableEq

/-- The manifest-wide hash algorithm discriminator: the value of hashKey. -/
inductive HashKey
  | md5
  | xxh
deriving Repr, DecidableEq

/-- Dynamic field access pair[hashKey] of the TypeScript code. -/
def HashPair.hashOf (p : HashPair) : HashKey → Option String
  | .md5 => p.md5
  | .xxh => p.xxh

/-- DfsMetadataPatchInfo. -/
structure PatchInfo where
  file_name : String
  size : Nat
  fromHash : HashPair
  toHash : HashPair
deriving Repr, DecidableEq

/-- DfsMetadataHashInfo: one entry of the target manifest's hashed list. -/
structure MetaHashInfo where
  file_name : String
  size : Nat
  md5 : Option String
  xxh : Option String
  installer : Bool
deriving Repr, DecidableEq

/-- Dynamic field access item[hashKey]. -/
def MetaHashInfo.hashOf (m : MetaHashInfo) : HashKey → Option String
  | .md5 => m.md5
  | .xxh => m.xxh

/-- DfsUpdateTask: a planned file operation (the fields the planner, the
merger and the downloader read; progress counters are irrelevant here). -/
structure UpdateTask where
  file_name : String
  size : Nat
  md5 : Option String
  xxh : Option String
  installer : Bool := false
  patch : Option PatchInfo := none
  lpatch : Option PatchInfo := none
  old_hash : Option String := none
  unwritable : Bool := false
  failed : Bool := false
deriving Repr, DecidableEq

/-- Dynamic field access item[hashKey] on a task. -/
def UpdateTask.hashOf (t : UpdateTask) : HashKey → Option String
  | .md5 => t.md5
  | .xxh => t.xxh

/-- One entry of the embedded/remote payload index (type Embedded). -/
structure Embedded where
  name : String
  offset : Nat
  raw_offset : Nat
  size : Nat
deriving Repr, DecidableEq

/-- FileWithPosition: an update task together with its payload position in
the remote package (dfsOffset, dfsSize). -/
structure FileWithPosition extends UpdateTask where
  dfsOffset : Nat
  dfsSize : Nat
deriving Repr, DecidableEq

/-- MergedGroupInfo.  The TypeScript mergedRange field is the string
"start-end" with end inclusive; it is modelled by the two numbers
rangeStart and rangeLast that the code formats into (and parses back out of)
that string.  The stored float field wasteRatio always equals
(totalDownloadSize - totalEffectiveSize) / totalDownloadSize: both
constructors write exactly that value (createSingleFileGroup writes the
literal 0, which is that quotient for a single file, also under the
rational 0/0 = 0 convention when the size is 0), so it is modelled as the
derived function MergedGroupInfo.wasteRatio below. -/
structure MergedGroupInfo where
  files : List FileWithPosition
  rangeStart : Int
  rangeLast : Int
  totalDownloadSize : Int
  totalEffectiveSize : Int
  gaps : List (Int × Int)
deriving Repr, DecidableEq

/-- The waste-ratio value stored in the wasteRatio field of the TypeScript
record (see the comment on MergedGroupInfo). -/
def MergedGroupInfo.wasteRatio (g : MergedGroupInfo) : ℚ :=
  ((g.totalDownloadSize - g.totalEffectiveSize : Int) : ℚ) / ((g.totalDownloadSize : Int) : ℚ)

/-- End (exclusive) of a file's payload byte range. -/
def fileEnd (f : FileWithPosition) : Int := (f.dfsOffset : Int) + (f.dfsSize : Int)

/-- Sum of the dfsSize fields, the reduce((sum, f) => sum + f.dfsSize, 0). -/
def sumDfsSize (l : List FileWithPosition) : Int :=
  (l.map (fun f => (f.dfsSize : Int))).sum

/-- createSingleFileGroup. -/
def createSingleFileGroup (f : FileWithPosition) : MergedGroupInfo :=
  { files := [f]
    rangeStart := (f.dfsOffset : Int)
    rangeLast := (f.dfsOffset : Int) + (f.dfsSize : Int) - 1
    totalDownloadSize := (f.dfsSize : Int)
    totalEffectiveSize := (f.dfsSize : Int)
    gaps := [] }

/-- Comparator of the sort((a, b) => a.dfsOffset - b.dfsOffset) calls.
JS Array.prototype.sort is a stable sort; it is modelled by the (stable)
insertion sort under this relation. -/
def offsetLe (a b : FileWithPosition) : Prop := a.dfsOffset ≤ b.dfsOffset

instance : DecidableRel offsetLe := fun a b => Nat.decLe a.dfsOffset b.dfsOffset

instance : IsTotal FileWithPosition offsetLe :=
  ⟨fun a b => Nat.le_total a.dfsOffset b.dfsOffset⟩

instance : IsTrans FileWithPosition offsetLe :=
  ⟨fun _ _ _ h1 h2 => Nat.le_trans h1 h2⟩

/-- The gap-collection loop of createMergedGroup: for each consecutive pair
whose next start lies strictly after the current end, record the gap. -/
def computeGaps : List FileWithPosition → List (Int × Int)
  | a :: b :: rest =>
      (if fileEnd a < (b.dfsOffset : Int) then [(fileEnd a, (b.dfsOffset : Int))] else [])
        ++ computeGaps (b :: rest)
  | _ => []

/-- createMergedGroup.  The code throws on an empty input list; that is the
none case.  The code sorts its input in place and derives every field from
the sorted list.  The JS float division for wasteRatio is 0/0 = NaN only
when totalDownloadSize is 0, a case the greedy merger never produces
(canMergeToGroup rejects it); the rational model yields 0 there. -/
def createMergedGroup (files : List FileWithPosition) : Option MergedGroupInfo :=
  match files.insertionSort offsetLe with
  | [] => none
  | first :: rest =>
      let lastFile := (first :: rest).getLast (by simp)
      let groupStart : Int := (first.dfsOffset : Int)
      let groupEnd : Int := fileEnd lastFile
      let totalDownloadSize : Int := groupEnd - groupStart
      let totalEffectiveSize : Int := sumDfsSize (first :: rest)
      some { files := first :: rest
             rangeStart := groupStart
             rangeLast := groupEnd - 1
             totalDownloadSize := totalDownloadSize
             totalEffectiveSize := totalEffectiveSize
             gaps := computeGaps (first :: rest) }

/-- The JS test (totalSize - effectiveSize) / totalSize <= 0.2 on doubles,
written in exact cross-multiplied integer form.  When totalSize is 0 the JS
quotient is NaN and the comparison is false; for nonzero totalSize the
integer form is exactly the real comparison (t - e)/t <= 1/5, which for the
magnitudes reachable from u32 offsets coincides with the JS double
comparison (see the module comment).  The lemma wasteRatioOkay_iff below
relates it to the rational quotient. -/
def wasteRatioOkay (totalSize effectiveSize : Int) : Bool :=
  if totalSize = 0 then false
  else if 0 < totalSize then decide (5 * (totalSize - effectiveSize) ≤ totalSize)
  else decide (totalSize ≤ 5 * (totalSize - effectiveSize))

/-- canMergeToGroup. -/
def canMergeToGroup (group : List FileWithPosition) (newFile : FileWithPosition) : Bool :=
  match group with
  | [] => true
  | g0 :: gs =>
      let lastFile := (g0 :: gs).getLast (by simp)
      let groupStart : Int := (g0.dfsOffset : Int)
      let groupEnd : Int := fileEnd lastFile
      let newEnd : Int := fileEnd newFile
      if (newFile.dfsOffset : Int) < groupEnd then false
      else
        let totalSize := newEnd - groupStart
        let effectiveSize := sumDfsSize (g0 :: gs) + (newFile.dfsSize : Int)
        decide (totalSize ≤ 10 * 1024 * 1024) && wasteRatioOkay totalSize effectiveSize

/-- Group flushing of the greedy loop: groups of two or more files become a
merged group, a lone file becomes a single-file group, nothing otherwise. -/
def flushCurrent (current : List FileWithPosition) : List MergedGroupInfo :=
  if 1 < current.length then (createMergedGroup current).toList
  else
    match current with
    | [f] => [createSingleFileGroup f]
    | _ => []

/-- The greedy merging loop of mergeSmallFilesIntoGroups: extend the current
group while canMergeToGroup allows it, otherwise flush it and restart from
the rejected file. -/
def greedyMerge (current : List FileWithPosition) : List FileWithPosition → List MergedGroupInfo
  | [] => flushCurrent current
  | f :: fs =>
      if canMergeToGroup current f then greedyMerge (current ++ [f]) fs
      else flushCurrent current ++ greedyMerge [f] fs

/-- Resolution of a task's payload position from the DFS index cache:
dfsOffset is cache.index.get(hash)?.offset || 0 and dfsSize is
cache.index.get(hash)?.size || f.size (JS or-defaulting, so a zero index
size also falls back to the task size). -/
def positionOf (idx : String → Option Embedded) (k : HashKey) (f : UpdateTask) : FileWithPosition :=
  match (f.hashOf k).bind idx with
  | some e => { toUpdateTask := f, dfsOffset := e.offset, dfsSize := if e.size = 0 then f.size else e.size }
  | none => { toUpdateTask := f, dfsOffset := 0, dfsSize := f.size }

/-- mergeSmallFilesIntoGroups.  The cache argument is the dfsIndexCache entry
for the source: none models the no-cache branch in which every file becomes
its own single-file group; some idx models cache.index.get.  Small files
(at most 500 KiB) are positioned, sorted by offset and merged greedily;
large files are appended as single-file groups. -/
def mergeSmallFilesIntoGroups (files : List UpdateTask)
    (cache : Option (String → Option Embedded)) (k : HashKey) : List MergedGroupInfo :=
  match cache with
  | none =>
      files.map (fun f => createSingleFileGroup { toUpdateTask := f, dfsOffset := 0, dfsSize := f.size })
  | some idx =>
      let smallFiles := files.filter (fun f => f.size ≤ 500 * 1024)
      let largeFiles := files.filter (fun f => 500 * 1024 < f.size)
      let filesWithPositions := (smallFiles.map (positionOf idx k)).insertionSort offsetLe
      greedyMerge [] filesWithPositions
        ++ largeFiles.map (fun f => createSingleFileGroup (positionOf idx k f))

/-! Derived quantities and the invariant carried by the greedy merger. -/

/-- Payload offset of the first file of a group (0 for the empty list,
which never occurs in a produced group). -/
def headOffset : List FileWithPosition → Int
  | [] => 0
  | f :: _ => (f.dfsOffset : Int)

/-- End (exclusive) of the last file of a group. -/
def lastEnd (l : List FileWithPosition) : Int :=
  match l.getLast? with
  | none => 0
  | some f => fileEnd f

/-- Consecutive files do not overlap: the next file starts at or after the
previous file's end.  This is the relation the merger maintains. -/
def chainStep (a b : FileWithPosition) : Prop := fileEnd a ≤ (b.dfsOffset : Int)

/-- Invariant of the group currently being assembled by the greedy loop. -/
structure CurOk (cur : List FileWithPosition) : Prop where
  chain : List.Chain' chainStep cur
  multi : 2 ≤ cur.length →
    lastEnd cur - headOffset cur ≤ 10 * 1024 * 1024 ∧
    0 < lastEnd cur - headOffset cur ∧
    5 * ((lastEnd cur - headOffset cur) - sumDfsSize cur) ≤ lastEnd cur - headOffset cur

/-- Invariant of every group the merger emits. -/
structure GroupOk (g : MergedGroupInfo) : Prop where
  nonempty : g.files ≠ []
  chain : List.Chain' chainStep g.files
  total_eq : g.totalDownloadSize = lastEnd g.files - headOffset g.files
  eff_eq : g.totalEffectiveSize = sumDfsSize g.files
  rs_eq : g.rangeStart = headOffset g.files
  rl_eq : g.rangeLast = lastEnd g.files - 1
  gaps_eq : g.gaps = computeGaps g.files
  small : 2 ≤ g.files.length → ∀ f ∈ g.files, f.size ≤ 500 * 1024
  bounds : 2 ≤ g.files.length →
    g.totalDownloadSize ≤ 10 * 1024 * 1024 ∧ 0 < g.totalDownloadSize ∧
    5 * (g.totalDownloadSize - g.totalEffectiveSize) ≤ g.totalDownloadSize

instance : IsTrans FileWithPosition chainStep := by
  refine ⟨fun a b c h1 h2 => ?_⟩
  have hb : (b.dfsOffset : Int) ≤ fileEnd b := by
    unfold fileEnd; omega
  exact le_trans h1 (le_trans hb h2)

lemma lastEnd_concat (l : List FileWithPosition) (f : FileWithPosition) :
    lastEnd (l ++ [f]) = fileEnd f := by
  simp [lastEnd, List.getLast?_concat]

lemma headOffset_append (l l₂ : List FileWithPosition) (h : l ≠ []) :
    headOffset (l ++ l₂) = headOffset l := by
  cases l with
  | nil => exact absurd rfl h
  | cons x xs => rfl

lemma sumDfsSize_append (l l₂ : List FileWithPosition) :
    sumDfsSize (l ++ l₂) = sumDfsSize l + sumDfsSize l₂ := by
  simp [sumDfsSize]

lemma lastEnd_eq_getLast (l : List FileWithPosition) (h : l ≠ []) :
    lastEnd l = fileEnd (l.getLast h) := by
  simp [lastEnd, List.getLast?_eq_getLast l h]

lemma headOffset_le_lastEnd {l : List FileWithPosition}
    (hc : List.Chain' chainStep l) (h : l ≠ []) : headOffset l ≤ lastEnd l := by
  induction l with
  | nil => exact absurd rfl h
  | cons x xs ih =>
    cases xs with
    | nil =>
        simp only [headOffset, lastEnd, List.getLast?_singleton, fileEnd]
        omega
    | cons y ys =>
        have hstep : chainStep x y := (List.chain'_cons.mp hc).1
        have htail := ih (List.chain'_cons.mp hc).2 (by simp)
        have h1 : (x.dfsOffset : Int) ≤ (y.dfsOffset : Int) := by
          have := hstep
          unfold chainStep fileEnd at this
          omega
        have h2 : lastEnd (x :: y :: ys) = lastEnd (y :: ys) := by
          simp [lastEnd]
        simp only [headOffset] at htail ⊢
        omega

lemma canMerge_true_iff (g0 : FileWithPosition) (gs : List FileWithPosition)
    (f : FileWithPosition) :
    canMergeToGroup (g0 :: gs) f = true ↔
      lastEnd (g0 :: gs) ≤ (f.dfsOffset : Int) ∧
      fileEnd f - (g0.dfsOffset : Int) ≤ 10 * 1024 * 1024 ∧
      wasteRatioOkay (fileEnd f - (g0.dfsOffset : Int))
        (sumDfsSize (g0 :: gs) + (f.dfsSize : Int)) = true := by
  rw [lastEnd_eq_getLast (g0 :: gs) (by simp)]
  simp only [canMergeToGroup]
  split
  · next hlt =>
      simp only [Bool.false_eq_true, false_iff]
      rintro ⟨h1, -, -⟩
      exact absurd hlt (not_lt.mpr h1)
  · next hge =>
      simp only [Bool.and_eq_true, decide_eq_true_eq]
      constructor
      · rintro ⟨h1, h2⟩
        exact ⟨not_lt.mp hge, h1, h2⟩
      · rintro ⟨-, h1, h2⟩
        exact ⟨h1, h2⟩

lemma wasteRatioOkay_pos {t e : Int} (ht : 0 ≤ t) (h : wasteRatioOkay t e = true) :
    0 < t ∧ 5 * (t - e) ≤ t := by
  unfold wasteRatioOkay at h
  split at h
  · exact absurd h (by simp)
  · split at h
    · exact ⟨by omega, by simpa using h⟩
    · omega

lemma curOk_push {cur : List FileWithPosition} {f : FileWithPosition}
    (h : CurOk cur) (hm : canMergeToGroup cur f = true) : CurOk (cur ++ [f]) := by
  cases cur with
  | nil =>
      refine ⟨List.chain'_singleton f, ?_⟩
      intro h2
      simp at h2
  | cons g0 gs =>
      obtain ⟨h1, h2, h3⟩ := (canMerge_true_iff g0 gs f).mp hm
      have hlast : chainStep ((g0 :: gs).getLast (by simp)) f := by
        unfold chainStep
        rw [← lastEnd_eq_getLast (g0 :: gs) (by simp)]
        exact h1
      have hchain : List.Chain' chainStep ((g0 :: gs) ++ [f]) := by
        rw [List.chain'_append]
        refine ⟨h.chain, List.chain'_singleton f, ?_⟩
        intro x hx y hy
        rw [List.getLast?_eq_getLast (g0 :: gs) (by simp), Option.mem_some_iff] at hx
        simp only [List.head?_cons, Option.mem_some_iff] at hy
        rw [← hx, ← hy] at *
        exact hx ▸ hy ▸ hlast
      refine ⟨hchain, ?_⟩
      intro _
      have hho : headOffset ((g0 :: gs) ++ [f]) = (g0.dfsOffset : Int) :=
        headOffset_append (g0 :: gs) [f] (by simp)
      have hle : lastEnd ((g0 :: gs) ++ [f]) = fileEnd f := lastEnd_concat _ f
      have hsum : sumDfsSize ((g0 :: gs) ++ [f]) = sumDfsSize (g0 :: gs) + (f.dfsSize : Int) := by
        rw [sumDfsSize_append]
        simp [sumDfsSize]
      have hts : 0 ≤ fileEnd f - (g0.dfsOffset : Int) := by
        have hho2 : headOffset (g0 :: gs) = (g0.dfsOffset : Int) := rfl
        have := headOffset_le_lastEnd h.chain (l := g0 :: gs) (by simp)
        have hf : (f.dfsOffset : Int) ≤ fileEnd f := by unfold fileEnd; omega
        omega
      obtain ⟨hpos, hbound⟩ := wasteRatioOkay_pos hts h3
      rw [hho, hle, hsum]
      exact ⟨h2, hpos, hbound⟩

lemma createSingleFileGroup_ok (f : FileWithPosition) : GroupOk (createSingleFileGroup f) := by
  refine ⟨by simp [createSingleFileGroup], ?_, ?_, ?_, rfl, ?_, ?_, ?_, ?_⟩
  · exact List.chain'_singleton f
  · show (f.dfsSize : Int) = lastEnd [f] - headOffset [f]
    simp [lastEnd, headOffset, fileEnd]
  · show (f.dfsSize : Int) = sumDfsSize [f]
    simp [sumDfsSize]
  · show (f.dfsOffset : Int) + (f.dfsSize : Int) - 1 = lastEnd [f] - 1
    simp [lastEnd, fileEnd]
  · rfl
  · intro h2
    simp [createSingleFileGroup] at h2
  · intro h2
    simp [createSingleFileGroup] at h2

lemma positionOf_size (idx : String → Option Embedded) (k : HashKey) (f : UpdateTask) :
    (positionOf idx k f).size = f.size := by
  unfold positionOf
  cases (f.hashOf k).bind idx <;> rfl

lemma chain_sorted {l : List FileWithPosition} (hc : List.Chain' chainStep l) :
    l.insertionSort offsetLe = l := by
  apply List.Sorted.insertionSort_eq
  have : List.Chain' offsetLe l := by
    refine hc.imp (fun a b h => ?_)
    unfold chainStep fileEnd at h
    unfold offsetLe
    omega
  exact List.chain'_iff_pairwise.mp this

lemma createMergedGroup_of_chain {cur : List FileWithPosition}
    (hchain : List.Chain' chainStep cur) (hne : cur ≠ []) :
    ∃ g, createMergedGroup cur = some g ∧ g.files = cur ∧
      g.totalDownloadSize = lastEnd cur - headOffset cur ∧
      g.totalEffectiveSize = sumDfsSize cur ∧
      g.rangeStart = headOffset cur ∧ g.rangeLast = lastEnd cur - 1 ∧
      g.gaps = computeGaps cur := by
  have hs := chain_sorted hchain
  cases cur with
  | nil => exact absurd rfl hne
  | cons x xs =>
      refine ⟨{ files := x :: xs
                rangeStart := (x.dfsOffset : Int)
                rangeLast := fileEnd ((x :: xs).getLast (by simp)) - 1
                totalDownloadSize := fileEnd ((x :: xs).getLast (by simp)) - (x.dfsOffset : Int)
                totalEffectiveSize := sumDfsSize (x :: xs)
                gaps := computeGaps (x :: xs) }, ?_, rfl, ?_, rfl, rfl, ?_, rfl⟩
      · unfold createMergedGroup
        rw [hs]
      · show fileEnd ((x :: xs).getLast (by simp)) - (x.dfsOffset : Int)
          = lastEnd (x :: xs) - headOffset (x :: xs)
        rw [lastEnd_eq_getLast (x :: xs) (by simp)]
        rfl
      · show fileEnd ((x :: xs).getLast (by simp)) - 1 = lastEnd (x :: xs) - 1
        rw [lastEnd_eq_getLast (x :: xs) (by simp)]

lemma flushCurrent_ok {cur : List FileWithPosition} (h : CurOk cur)
    (hsmall : ∀ f ∈ cur, f.size ≤ 500 * 1024) :
    ∀ g ∈ flushCurrent cur, GroupOk g := by
  intro g hg
  unfold flushCurrent at hg
  split at hg
  · next hlen =>
      obtain ⟨gm, hsome, hfiles, ht, he, hrs, hrl, hgaps⟩ :=
        createMergedGroup_of_chain h.chain (by intro hnil; rw [hnil] at hlen; simp at hlen)
      rw [hsome] at hg
      simp only [Option.toList_some, List.mem_singleton] at hg
      subst hg
      have hlen2 : 2 ≤ cur.length := by omega
      have hb := h.multi hlen2
      refine ⟨by rw [hfiles]; intro hnil; rw [hnil] at hlen; simp at hlen,
        by rw [hfiles]; exact h.chain, by rw [hfiles]; exact ht, by rw [hfiles]; exact he,
        by rw [hfiles]; exact hrs, by rw [hfiles]; exact hrl, by rw [hfiles]; exact hgaps,
        ?_, ?_⟩
      · intro _ f hf
        rw [hfiles] at hf
        exact hsmall f hf
      · intro _
        rw [ht, he]
        exact hb
  · next hlen =>
      split at hg
      · next f =>
          simp only [List.mem_singleton] at hg
          subst hg
          exact createSingleFileGroup_ok f
      · simp at hg

lemma greedyMerge_ok : ∀ (rest cur : List FileWithPosition), CurOk cur →
    (∀ f ∈ cur, f.size ≤ 500 * 1024) → (∀ f ∈ rest, f.size ≤ 500 * 1024) →
    ∀ g ∈ greedyMerge cur rest, GroupOk g := by
  intro rest
  induction rest with
  | nil =>
      intro cur h hs _ g hg
      exact flushCurrent_ok h hs g hg
  | cons f fs ih =>
      intro cur h hs hr g hg
      have hf : f.size ≤ 500 * 1024 := hr f (by simp)
      have hfs : ∀ x ∈ fs, x.size ≤ 500 * 1024 := fun x hx => hr x (by simp [hx])
      cases hc : canMergeToGroup cur f with
      | true =>
          rw [greedyMerge, if_pos hc] at hg
          refine ih (cur ++ [f]) (curOk_push h hc) ?_ hfs g hg
          intro x hx
          rcases List.mem_append.mp hx with hx1 | hx2
          · exact hs x hx1
          · rw [List.mem_singleton] at hx2
            subst hx2
            exact hf
      | false =>
          rw [greedyMerge, if_neg (by simp [hc])] at hg
          rcases List.mem_append.mp hg with hg1 | hg2
          · exact flushCurrent_ok h hs g hg1
          · refine ih [f] ⟨List.chain'_singleton f, ?_⟩ ?_ hfs g hg2
            · intro h2
              simp at h2
            · intro x hx
              rw [List.mem_singleton] at hx
              subst hx
              exact hf

/-- Every group emitted by mergeSmallFilesIntoGroups satisfies the merger
invariant: its record fields are the derived quantities of its (disjoint,
offset-ordered) file list, and multi-file groups respect the 10 MiB, 20%
waste and 500 KiB constraints. -/
theorem mergeSmallFiles_ok (files : List UpdateTask)
    (cache : Option (String → Option Embedded)) (k : HashKey) :
    ∀ g ∈ mergeSmallFilesIntoGroups files cache k, GroupOk g := by
  intro g hg
  unfold mergeSmallFilesIntoGroups at hg
  match cache with
  | none =>
      simp only [List.mem_map] at hg
      obtain ⟨f, -, hgf⟩ := hg
      rw [← hgf]
      exact createSingleFileGroup_ok _
  | some idx =>
      simp only at hg
      rcases List.mem_append.mp hg with hg1 | hg2
      · refine greedyMerge_ok _ [] ⟨List.chain'_nil, by simp⟩ (by simp) ?_ g hg1
        intro x hx
        rw [(List.perm_insertionSort offsetLe _).mem_iff] at hx
        simp only [List.mem_map, List.mem_filter] at hx
        obtain ⟨f, ⟨-, hfsz⟩, hxf⟩ := hx
        rw [← hxf, positionOf_size]
        exact of_decide_eq_true hfsz
      · simp only [List.mem_map] at hg2
        obtain ⟨f, -, hgf⟩ := hg2
        rw [← hgf]
        exact createSingleFileGroup_ok _

lemma wasteRatio_le_of_bounds {g : MergedGroupInfo} (h0 : 0 < g.totalDownloadSize)
    (h5 : 5 * (g.totalDownloadSize - g.totalEffectiveSize) ≤ g.totalDownloadSize) :
    g.wasteRatio ≤ 1/5 := by
  have h5Q : ((5 * (g.totalDownloadSize - g.totalEffectiveSize) : Int) : ℚ)
      ≤ ((g.totalDownloadSize : Int) : ℚ) := Int.cast_le.mpr h5
  have h0Q : (0 : ℚ) < ((g.totalDownloadSize : Int) : ℚ) := by exact_mod_cast h0
  unfold MergedGroupInfo.wasteRatio
  rw [div_le_iff₀ h0Q]
  push_cast at h5Q ⊢
  linarith

/-- Specification-side description of the gaps: the non-empty intervals
between the byte ranges of consecutive files. -/
def gapsSpec (l : List FileWithPosition) : List (Int × Int) :=
  (l.zip l.tail).filterMap fun p =>
    if fileEnd p.1 < (p.2.dfsOffset : Int) then some (fileEnd p.1, (p.2.dfsOffset : Int)) else none

lemma computeGaps_eq_gapsSpec : ∀ l : List FileWithPosition, computeGaps l = gapsSpec l := by
  intro l
  induction l with
  | nil => rfl
  | cons a t ih =>
      cases t with
      | nil => rfl
      | cons b rest =>
          by_cases hab : fileEnd a < (b.dfsOffset : Int)
          · simp only [computeGaps, gapsSpec, List.tail_cons, List.zip_cons_cons,
              List.filterMap_cons, if_pos hab] at ih ⊢
            rw [ih]
            rfl
          · simp only [computeGaps, gapsSpec, List.tail_cons, List.zip_cons_cons,
              List.filterMap_cons, if_neg hab] at ih ⊢
            rw [ih]
            rfl

lemma foldl_min_of_le {x : Int} {xs : List Int} (h : ∀ y ∈ xs, x ≤ y) :
    xs.foldl min x = x := by
  induction xs with
  | nil => rfl
  | cons y ys ih =>
      simp only [List.foldl_cons]
      rw [min_eq_left (h y (by simp))]
      exact ih (fun z hz => h z (by simp [hz]))

/-- The mergedRangeStart computation of runMergedGroupDownload:
Math.min over the dfsOffset of every file of the group. -/
def mergedRangeStart (g : MergedGroupInfo) : Int :=
  match g.files.map (fun f => (f.dfsOffset : Int)) with
  | [] => 0
  | x :: xs => xs.foldl min x

/-- One chunk of the InstallMultichunkStream request built by
runMergedGroupDownload: the stream offset is relative to mergedRangeStart,
the size is the file's payload size, the target the destination path. -/
structure ChunkSpec where
  offset : Int
  size : Nat
  target : String
deriving Repr, DecidableEq

/-- The chunk construction loop of runMergedGroupDownload. -/
def buildChunks (source : String) (g : MergedGroupInfo) : List ChunkSpec :=
  g.files.map fun f =>
    { offset := (f.dfsOffset : Int) - mergedRangeStart g
      size := f.dfsSize
      target := source ++ (if f.file_name.startsWith "/" then f.file_name else "/" ++ f.file_name) }

lemma mergedRangeStart_eq {g : MergedGroupInfo}
    (hchain : List.Chain' chainStep g.files) (hne : g.files ≠ []) :
    mergedRangeStart g = headOffset g.files := by
  obtain ⟨x, xs, hxe⟩ : ∃ x xs, g.files = x :: xs := by
    cases hf : g.files with
    | nil => exact absurd hf hne
    | cons x xs => exact ⟨x, xs, rfl⟩
  have hpw := List.chain'_iff_pairwise.mp hchain
  rw [hxe] at hpw
  have hhead : ∀ b ∈ xs, chainStep x b := (List.pairwise_cons.mp hpw).1
  unfold mergedRangeStart
  rw [hxe]
  simp only [List.map_cons]
  rw [foldl_min_of_le]
  · rfl
  · intro y hy
    rw [List.mem_map] at hy
    obtain ⟨b, hb, hby⟩ := hy
    have h1 := hhead b hb
    unfold chainStep fileEnd at h1
    omega

/-! Concrete merger inputs used by the witnesses and the counterexample. -/

/-- Concrete small task, 100 bytes, payload at offset 0. -/
def taskC : UpdateTask := { file_name := "c.bin", size := 100, md5 := some "hc", xxh := none }

/-- Concrete small task, 100 bytes, payload at offset 120. -/
def taskD : UpdateTask := { file_name := "d.bin", size := 100, md5 := some "hd", xxh := none }

/-- Concrete DFS index for taskC and taskD: two 100-byte payloads separated
by a 20-byte gap. -/
def idxW : String → Option Embedded := fun s =>
  if s = "hc" then some ⟨"hc", 0, 0, 100⟩
  else if s = "hd" then some ⟨"hd", 120, 0, 100⟩
  else none

/-- The (unique) group the merger produces from taskC and taskD. -/
def witGroup : MergedGroupInfo :=
  (mergeSmallFilesIntoGroups [taskC, taskD] (some idxW) HashKey.md5).headD
    (createSingleFileGroup (positionOf idxW HashKey.md5 taskC))

/-- Concrete zero-sized task whose payload shares its offset with zTaskB. -/
def zTaskA : UpdateTask := { file_name := "za.bin", size := 0, md5 := some "za", xxh := none }

/-- Concrete 10-byte task at the same payload offset as zTaskA. -/
def zTaskB : UpdateTask := { file_name := "zb.bin", size := 10, md5 := some "zb", xxh := none }

/-- Concrete DFS index placing zTaskA (empty) and zTaskB at offset 5. -/
def zIdx : String → Option Embedded := fun s =>
  if s = "za" then some ⟨"za", 5, 0, 0⟩
  else if s = "zb" then some ⟨"zb", 5, 0, 10⟩
  else none

/-- C1: every MergedGroup with two or more files produced by the greedy
range merger satisfies: the total download size, which equals the last
file's end minus the first file's start, is at most 10 MiB; the waste ratio
(total download minus total effective, over total download) is at most 0.20;
and every file in the group has size at most 500 KiB. -/
theorem merged_group_waste_bound (files : List UpdateTask)
    (cache : Option (String → Option Embedded)) (k : HashKey) (g : MergedGroupInfo)
    (hg : g ∈ mergeSmallFilesIntoGroups files cache k) (h2 : 2 ≤ g.files.length) :
    g.totalDownloadSize = lastEnd g.files - headOffset g.files ∧
    g.totalDownloadSize ≤ 10 * 1024 * 1024 ∧
    g.wasteRatio ≤ 1/5 ∧
    ∀ f ∈ g.files, f.size ≤ 500 * 1024 := by
  have H := mergeSmallFiles_ok files cache k g hg
  obtain ⟨hb1, hb2, hb3⟩ := H.bounds h2
  exact ⟨H.total_eq, hb1, wasteRatio_le_of_bounds hb2 hb3, H.small h2⟩

/-- C1 witness: the two-file group built from taskC and taskD satisfies the
constraints. -/
theorem merged_group_waste_bound_witness :
    (witGroup ∈ mergeSmallFilesIntoGroups [taskC, taskD] (some idxW) HashKey.md5 ∧
     2 ≤ witGroup.files.length) ∧
    (witGroup.totalDownloadSize = lastEnd witGroup.files - headOffset witGroup.files ∧
     witGroup.totalDownloadSize ≤ 10 * 1024 * 1024 ∧
     witGroup.wasteRatio ≤ 1/5 ∧
     ∀ f ∈ witGroup.files, f.size ≤ 500 * 1024) :=
  ⟨⟨by decide, by decide⟩,
   merged_group_waste_bound [taskC, taskD] (some idxW) HashKey.md5 witGroup
     (by decide) (by decide)⟩

/-- C7: for every multi-file merged group, the total effective size is the
sum of the constituent payload sizes, the requested range is the contiguous
interval from the first file's offset to the last file's end (inclusive
form), and every chunk passed to the multichunk installer carries the stream
offset file.dfsOffset minus the group's range start. -/
theorem merged_group_chunk_offsets (files : List UpdateTask)
    (cache : Option (String → Option Embedded)) (k : HashKey) (g : MergedGroupInfo)
    (hg : g ∈ mergeSmallFilesIntoGroups files cache k) (_h2 : 2 ≤ g.files.length) :
    g.totalEffectiveSize = sumDfsSize g.files ∧
    g.rangeStart = headOffset g.files ∧
    g.rangeLast = lastEnd g.files - 1 ∧
    ∀ source, (buildChunks source g).map (fun c => c.offset)
      = g.files.map (fun f => (f.dfsOffset : Int) - g.rangeStart) := by
  have H := mergeSmallFiles_ok files cache k g hg
  refine ⟨H.eff_eq, H.rs_eq, H.rl_eq, ?_⟩
  intro source
  have hms : mergedRangeStart g = headOffset g.files := mergedRangeStart_eq H.chain H.nonempty
  simp [buildChunks, List.map_map, Function.comp, hms, H.rs_eq]

/-- C7 witness: the chunk offsets of the concrete two-file group. -/
theorem merged_group_chunk_offsets_witness :
    (witGroup ∈ mergeSmallFilesIntoGroups [taskC, taskD] (some idxW) HashKey.md5 ∧
     2 ≤ witGroup.files.length) ∧
    (witGroup.totalEffectiveSize = sumDfsSize witGroup.files ∧
     witGroup.rangeStart = headOffset witGroup.files ∧
     witGroup.rangeLast = lastEnd witGroup.files - 1 ∧
     ∀ source, (buildChunks source witGroup).map (fun c => c.offset)
       = witGroup.files.map (fun f => (f.dfsOffset : Int) - witGroup.rangeStart)) :=
  ⟨⟨by decide, by decide⟩,
   merged_group_chunk_offsets [taskC, taskD] (some idxW) HashKey.md5 witGroup
     (by decide) (by decide)⟩

/-- C10 counterexample: strict offset increase fails.  With a zero-sized
file (task size 0, and a zero index size falls back to it) sharing its
payload offset with a following file, canMergeToGroup accepts the pair
(no overlap since the first range is empty, waste 0), so the produced
two-file group has equal consecutive offsets. -/
theorem merged_group_ordering_cex :
    ¬ (∀ g ∈ mergeSmallFilesIntoGroups [zTaskA, zTaskB] (some zIdx) HashKey.md5,
        2 ≤ g.files.length →
        List.Pairwise (fun a b => a.dfsOffset < b.dfsOffset) g.files) := by decide

/-- C10 (amended): within every multi-file merged group the files are in
non-decreasing payload-offset order with each file's end at most the next
file's offset (hence pairwise disjoint byte ranges, and strictly increasing
offsets whenever every file in the group has positive payload size), and
the gaps list is exactly the list of non-empty intervals between consecutive
files' ranges. -/
theorem merged_group_ordering (files : List UpdateTask)
    (cache : Option (String → Option Embedded)) (k : HashKey) (g : MergedGroupInfo)
    (hg : g ∈ mergeSmallFilesIntoGroups files cache k) (_h2 : 2 ≤ g.files.length) :
    List.Pairwise chainStep g.files ∧
    ((∀ f ∈ g.files, 0 < f.dfsSize) →
      List.Pairwise (fun a b => a.dfsOffset < b.dfsOffset) g.files) ∧
    g.gaps = gapsSpec g.files := by
  have H := mergeSmallFiles_ok files cache k g hg
  have hpw : List.Pairwise chainStep g.files := List.chain'_iff_pairwise.mp H.chain
  refine ⟨hpw, ?_, by rw [H.gaps_eq, computeGaps_eq_gapsSpec]⟩
  intro hpos
  refine hpw.imp_of_mem fun {a b} ha hb hab => ?_
  have hsz := hpos a ha
  unfold chainStep fileEnd at hab
  omega

/-- C10 amended witness: ordering, disjointness, strictness and gaps of the
concrete two-file group (both files have positive sizes; the single gap is
the 20-byte interval between the payloads). -/
theorem merged_group_ordering_witness :
    (witGroup ∈ mergeSmallFilesIntoGroups [taskC, taskD] (some idxW) HashKey.md5 ∧
     2 ≤ witGroup.files.length) ∧
    (List.Pairwise chainStep witGroup.files ∧
     ((∀ f ∈ witGroup.files, 0 < f.dfsSize) →
       List.Pairwise (fun a b => a.dfsOffset < b.dfsOffset) witGroup.files) ∧
     witGroup.gaps = gapsSpec witGroup.files) :=
  ⟨⟨by decide, by decide⟩,
   merged_group_ordering [taskC, taskD] (some idxW) HashKey.md5 witGroup
     (by decide) (by decide)⟩

/-! Install-mode selection (getFileInstallMode), the runDfsDownload branch
selection, the runInstall retry loop, and the merged-group fallback. -/

/-- The closed enumeration of install modes.  The TypeScript value 'local'
is named localFile here. -/
inductive InstallMode
  | localFile
  | hybridpatch
  | patch
  | direct
deriving Repr, DecidableEq

/-- getFileInstallMode.  The hasLocalFile and hasLpatchFile finds compare an
embedded name (always a string) against a possibly-undefined dynamic field,
modelled by Option String equality against some name. -/
def getFileInstallMode (file : UpdateTask) (localEmb : List Embedded) (k : HashKey) :
    InstallMode :=
  if file.failed then .direct
  else if (localEmb.find? (fun l => file.hashOf k = some l.name)).isSome then .localFile
  else if (localEmb.find? (fun l =>
            (file.lpatch.bind fun p => p.fromHash.hashOf k) = some l.name)).isSome
          && file.lpatch.isSome then .hybridpatch
  else if file.patch.isSome then .patch
  else .direct

/-- Specification-side mode selection: the first applicable of Local (the
target hash names an embedded payload), HybridPatch (an lpatch is attached
and its from-hash names an embedded payload), Patch (a patch record is
attached), Direct (otherwise); a failed task is always Direct. -/
def specInstallMode (file : UpdateTask) (localEmb : List Embedded) (k : HashKey) :
    InstallMode :=
  if file.failed then .direct
  else if ∃ em ∈ localEmb, file.hashOf k = some em.name then .localFile
  else if file.lpatch.isSome = true ∧
          ∃ em ∈ localEmb, (file.lpatch.bind fun p => p.fromHash.hashOf k) = some em.name then
    .hybridpatch
  else if file.patch.isSome then .patch
  else .direct

/-- C3: the install mode chosen by getFileInstallMode is the first
applicable of Local, HybridPatch, Patch, Direct in that order, and a task
whose failed flag is set always resolves to Direct. -/
theorem install_mode_selection (file : UpdateTask) (localEmb : List Embedded) (k : HashKey) :
    getFileInstallMode file localEmb k = specInstallMode file localEmb k ∧
    (file.failed = true → getFileInstallMode file localEmb k = InstallMode.direct) := by
  have hlocal : (localEmb.find? (fun l => file.hashOf k = some l.name)).isSome = true
      ↔ ∃ em ∈ localEmb, file.hashOf k = some em.name := by
    rw [List.find?_isSome]
    constructor
    · rintro ⟨x, hx, hp⟩
      exact ⟨x, hx, of_decide_eq_true hp⟩
    · rintro ⟨x, hx, hp⟩
      exact ⟨x, hx, decide_eq_true hp⟩
  have hlp : (localEmb.find? (fun l =>
        (file.lpatch.bind fun p => p.fromHash.hashOf k) = some l.name)).isSome = true
      ↔ ∃ em ∈ localEmb, (file.lpatch.bind fun p => p.fromHash.hashOf k) = some em.name := by
    rw [List.find?_isSome]
    constructor
    · rintro ⟨x, hx, hp⟩
      exact ⟨x, hx, of_decide_eq_true hp⟩
    · rintro ⟨x, hx, hp⟩
      exact ⟨x, hx, decide_eq_true hp⟩
  refine ⟨?_, ?_⟩
  · unfold getFileInstallMode specInstallMode
    by_cases hf : file.failed = true
    · rw [if_pos hf, if_pos hf]
    · rw [if_neg hf, if_neg hf]
      by_cases h1 : ∃ em ∈ localEmb, file.hashOf k = some em.name
      · rw [if_pos (hlocal.mpr h1), if_pos h1]
      · rw [if_neg (fun hh => h1 (hlocal.mp hh)), if_neg h1]
        by_cases h2 : file.lpatch.isSome = true ∧
            ∃ em ∈ localEmb, (file.lpatch.bind fun p => p.fromHash.hashOf k) = some em.name
        · rw [if_pos (by rw [Bool.and_eq_true]; exact ⟨hlp.mpr h2.2, h2.1⟩), if_pos h2]
        · rw [if_neg (fun hh => by
            rw [Bool.and_eq_true] at hh
            exact h2 ⟨hh.2, hlp.mp hh.1⟩), if_neg h2]
  · intro hf
    unfold getFileInstallMode
    rw [if_pos hf]

/-- The branch selection of runDfsDownload: Local unless disabled,
HybridPatch unless patching or local is disabled, Patch unless disabled,
Direct otherwise. -/
def runDfsDownloadMode (item : UpdateTask) (localEmb : List Embedded) (k : HashKey)
    (disable_patch disable_local : Bool) : InstallMode :=
  if (localEmb.find? (fun l => item.hashOf k = some l.name)).isSome && !disable_local then
    .localFile
  else if (localEmb.find? (fun l =>
            (item.lpatch.bind fun p => p.fromHash.hashOf k) = some l.name)).isSome
          && item.lpatch.isSome && !disable_patch && !disable_local then .hybridpatch
  else if item.patch.isSome && !disable_patch then .patch
  else .direct

/-- Flags of one download attempt of the runInstall retry loop. -/
structure AttemptSpec where
  disable_patch : Bool
  disable_local : Bool
deriving Repr, DecidableEq

/-- The retry loop of runInstall: for i in 0..2, run the attempt with
disable_patch = hasError and disable_local = hasError or online; on failure
set hasError and continue; the failure of attempt 2 rethrows.  The loop body
contains no timer, so no time passes between attempts.  fails i tells
whether attempt i fails; the result is the list of performed attempts and
whether the loop ended in success.  The first argument is the number of
remaining loop iterations (3 - i); the 0 case is unreachable from
installAttempts. -/
def retryGo (fails : Nat → Bool) (online : Bool) :
    Nat → Nat → Bool → List AttemptSpec × Bool
  | 0, _, _ => ([], false)
  | remaining + 1, i, hasError =>
      if fails i then
        if i = 2 then ([⟨hasError, hasError || online⟩], false)
        else
          match retryGo fails online remaining (i + 1) true with
          | (rest, ok) => (⟨hasError, hasError || online⟩ :: rest, ok)
      else ([⟨hasError, hasError || online⟩], true)

/-- The mapLimit body of runInstall for one task: up to three attempts
starting with no error. -/
def installAttempts (fails : Nat → Bool) (online : Bool) : List AttemptSpec × Bool :=
  retryGo fails online 3 0 false

/-- The waits between consecutive attempts: the loop performs none, so each
of the (number of attempts - 1) gaps is 0 ms. -/
def installDelaysMs (fails : Nat → Bool) (online : Bool) : List Nat :=
  List.replicate ((installAttempts fails online).1.length - 1) 0

/-- C4 counterexample: there is no backoff.  When every attempt fails the
loop performs three attempts whose two inter-attempt gaps are both zero
milliseconds, so the waits are not positive, let alone exponentially
growing. -/
theorem retry_backoff_cex :
    installDelaysMs (fun _ => true) false = [0, 0] ∧
    ¬ (∀ d ∈ installDelaysMs (fun _ => true) false, 0 < d) := by decide

/-- C4 (amended): each task is attempted at most 3 times; the first attempt
runs with disable_patch = false and disable_local = online; every retry
after a failure runs with Local and Patch disabled, and with both flags
disabled runDfsDownload always takes the Direct branch; the error is
propagated to the caller exactly when all three attempts fail; and the
attempts are immediate, with no backoff between them. -/
theorem retry_policy (fails : Nat → Bool) (online : Bool) :
    (installAttempts fails online).1.length ≤ 3 ∧
    (installAttempts fails online).1.head? = some ⟨false, online⟩ ∧
    (∀ a ∈ (installAttempts fails online).1.tail, a = ⟨true, true⟩) ∧
    (∀ item localEmb k, runDfsDownloadMode item localEmb k true true = InstallMode.direct) ∧
    ((installAttempts fails online).2 = false ↔ (fails 0 && fails 1 && fails 2) = true) ∧
    (∀ d ∈ installDelaysMs fails online, d = 0) := by
  cases h0 : fails 0 <;> cases h1 : fails 1 <;> cases h2 : fails 2 <;>
    simp [installAttempts, retryGo, installDelaysMs, runDfsDownloadMode, h0, h1, h2]

/-- Per-chunk result of the InstallMultichunkStream response, as inspected
by runMergedGroupDownload: an object with an Err field, an object with an
Ok field, an object with a legacy error field, an object with none of
those fields, or a non-object value. -/
inductive ChunkRes
  | okRes
  | errRes (msg : String)
  | errorField (msg : String)
  | otherObj
  | nonObject
deriving Repr, DecidableEq

/-- Whether the per-chunk inspection marks the file failed: Err and the
legacy error field do, a malformed non-object result does, Ok does not, and
an object carrying none of the recognized fields is left untouched. -/
def chunkResFailed : ChunkRes → Bool
  | .okRes => false
  | .errRes _ => true
  | .errorField _ => true
  | .otherObj => false
  | .nonObject => true

/-- The failedFiles collection of runMergedGroupDownload: the forEach pairs
each result with the file of the same index, ignores result indices beyond
the file list, and leaves files without a result untouched. -/
def collectFailedFiles (files : List UpdateTask) (results : List ChunkRes) :
    List UpdateTask :=
  ((files.zip results).filter fun p => chunkResFailed p.2).map (fun p => p.1)

/-- fallbackToIndividualDownload: reset the failed flag, then run each file
through runDfsDownload with disable_patch = false and disable_local =
false. -/
def fallbackRedispatch (files : List UpdateTask) (localEmb : List Embedded) (k : HashKey) :
    List (UpdateTask × InstallMode) :=
  files.map fun f =>
    ({ f with failed := false },
     runDfsDownloadMode { f with failed := false } localEmb k false false)

/-- Concrete patch record for the fallback counterexample. -/
def pRec : PatchInfo :=
  { file_name := "p.bin", size := 4, fromHash := ⟨some "old", none⟩, toHash := ⟨some "new", none⟩ }

/-- Concrete patch-mode task inside a merged group. -/
def pTask : UpdateTask :=
  { file_name := "p.bin", size := 9, md5 := some "new", xxh := none, patch := some pRec }

/-- C5 counterexample: fallback does not disable Local and Patch.  A
patch-mode file whose chunk fails is re-queued, and fallback re-dispatches
it through runDfsDownload with both disable flags false, so it resolves to
Patch, not to the claimed forced Direct. -/
theorem group_fallback_cex :
    collectFailedFiles [pTask] [ChunkRes.errRes "read error"] = [pTask] ∧
    (fallbackRedispatch [pTask] [] HashKey.md5).map (fun p => p.2) = [InstallMode.patch] ∧
    InstallMode.patch ≠ InstallMode.direct := by decide

/-- C5 (amended): exactly the files whose per-chunk result is an error (an
Err or legacy error field, or a malformed result) are collected for
fallback; files whose chunk succeeded are not collected; the collected
files are re-dispatched individually with the failed flag cleared and with
disable_patch and disable_local both false, going through the normal
runDfsDownload mode selection rather than a forced Direct. -/
theorem group_fallback_requeue (files : List UpdateTask) (results : List ChunkRes)
    (localEmb : List Embedded) (k : HashKey) (hnd : files.Nodup) :
    (∀ i (h1 : i < files.length) (h2 : i < results.length),
       chunkResFailed results[i] = false → files[i] ∉ collectFailedFiles files results) ∧
    (∀ i (h1 : i < files.length) (h2 : i < results.length),
       chunkResFailed results[i] = true → files[i] ∈ collectFailedFiles files results) ∧
    (∀ f m, (f, m) ∈ fallbackRedispatch (collectFailedFiles files results) localEmb k →
       f.failed = false ∧ m = runDfsDownloadMode f localEmb k false false) := by
  refine ⟨?_, ?_, ?_⟩
  · intro i h1 h2 hok hmem
    unfold collectFailedFiles at hmem
    rw [List.mem_map] at hmem
    obtain ⟨p, hp, hpi⟩ := hmem
    rw [List.mem_filter] at hp
    obtain ⟨hpz, hpf⟩ := hp
    rw [List.mem_iff_getElem] at hpz
    obtain ⟨j, hj, hpj⟩ := hpz
    rw [List.getElem_zip] at hpj
    rw [← hpj] at hpi hpf
    simp only at hpi hpf
    have hij : j = i := hnd.getElem_inj_iff.mp hpi
    subst hij
    rw [hok] at hpf
    exact Bool.false_ne_true hpf
  · intro i h1 h2 hfail
    unfold collectFailedFiles
    rw [List.mem_map]
    refine ⟨(files[i], results[i]), ?_, rfl⟩
    rw [List.mem_filter]
    constructor
    · rw [List.mem_iff_getElem]
      refine ⟨i, ?_, ?_⟩
      · rw [List.length_zip]
        omega
      · rw [List.getElem_zip]
    · simpa using hfail
  · intro f m hm
    unfold fallbackRedispatch at hm
    rw [List.mem_map] at hm
    obtain ⟨x, -, hx⟩ := hm
    have hf : f = { x with failed := false } := by
      have := congrArg Prod.fst hx
      simpa using this.symm
    have hmode : m = runDfsDownloadMode { x with failed := false } localEmb k false false := by
      have := congrArg Prod.snd hx
      simpa using this.symm
    subst hf
    exact ⟨rfl, by rw [hmode]⟩

/-- C5 amended witness: the concrete one-file failing group. -/
theorem group_fallback_requeue_witness :
    ([pTask].Nodup) ∧
    ((∀ i (_h1 : i < [pTask].length) (_h2 : i < [ChunkRes.errRes "read error"].length),
       chunkResFailed [ChunkRes.errRes "read error"][i] = false →
         [pTask][i] ∉ collectFailedFiles [pTask] [ChunkRes.errRes "read error"]) ∧
     (∀ i (_h1 : i < [pTask].length) (_h2 : i < [ChunkRes.errRes "read error"].length),
       chunkResFailed [ChunkRes.errRes "read error"][i] = true →
         [pTask][i] ∈ collectFailedFiles [pTask] [ChunkRes.errRes "read error"]) ∧
     (∀ f m, (f, m) ∈ fallbackRedispatch
          (collectFailedFiles [pTask] [ChunkRes.errRes "read error"]) [] HashKey.md5 →
       f.failed = false ∧ m = runDfsDownloadMode f [] HashKey.md5 false false)) :=
  ⟨by decide,
   group_fallback_requeue [pTask] [ChunkRes.errRes "read error"] [] HashKey.md5 (by decide)⟩

/-! The diff planner of runInstall: local-file matching, diff-task
construction with patch and lpatch candidate selection, and the
already-at-latest early return. -/

/-- One entry of the local file listing returned by
deep_readdir_with_metadata. -/
structure LocalFileMeta where
  file_name : String
  size : Nat
  hash : String
  unwritable : Bool
deriving Repr, DecidableEq

/-- The path normalization applied to both sides of the planner's
comparison: strip_first_slash(name.toLowerCase()), where strip_first_slash
replaces every backslash by a slash and removes one leading slash.  JS
strings are character sequences; the result is kept as the character
list. -/
def normalizePath (s : String) : List Char :=
  match (s.data.map Char.toLower).map (fun c => if c = '\\' then '/' else c) with
  | '/' :: rest => rest
  | other => other

/-- Construction of one DiffTask pushed by runInstall, given the manifest
entry and the local file found (if any): the patch candidate is the first
patch whose from-hash equals the local hash and whose to-hash equals the
entry's hash; the lpatch candidate is the first patch whose from-hash names
any embedded payload. -/
def mkDiffTask (patches : List PatchInfo) (embedded : List Embedded) (k : HashKey)
    (item : MetaHashInfo) (localF : Option LocalFileMeta) : UpdateTask :=
  { file_name := item.file_name
    size := item.size
    md5 := item.md5
    xxh := item.xxh
    installer := item.installer
    patch := patches.find? (fun e =>
      decide (e.fromHash.hashOf k = localF.map (fun l => l.hash)) &&
      decide (e.toHash.hashOf k = item.hashOf k))
    lpatch := patches.find? (fun e =>
      embedded.any (fun em => decide (some em.name = e.fromHash.hashOf k)))
    old_hash := localF.map (fun l => l.hash)
    unwritable := (localF.map (fun l => l.unwritable)).getD false
    failed := false }

/-- The diff loop of runInstall: for each manifest entry find the first
local file with the same normalized path; if none is found or its hash
differs from the entry's hash (under the manifest hash algorithm), emit a
DiffTask. -/
def planDiff (hashed : List MetaHashInfo) (localMeta : List LocalFileMeta)
    (patches : List PatchInfo) (embedded : List Embedded) (k : HashKey) :
    List UpdateTask :=
  hashed.filterMap fun item =>
    match localMeta.find? (fun e => decide (normalizePath e.file_name = normalizePath item.file_name)) with
    | none => some (mkDiffTask patches embedded k item none)
    | some l =>
        if some l.hash = item.hashOf k then none
        else some (mkDiffTask patches embedded k item (some l))

/-- Outcome of the planning phase of runInstall: with an empty diff list the
function reports the installed state as current and returns before any
download or write; otherwise it proceeds to download the diff tasks. -/
inductive InstallOutcome
  | alreadyLatest
  | proceed (tasks : List UpdateTask)
deriving Repr, DecidableEq

/-- The early-return check of runInstall after the diff loop. -/
def runInstallPlan (hashed : List MetaHashInfo) (localMeta : List LocalFileMeta)
    (patches : List PatchInfo) (embedded : List Embedded) (k : HashKey) :
    InstallOutcome :=
  if (planDiff hashed localMeta patches embedded k).length = 0 then .alreadyLatest
  else .proceed (planDiff hashed localMeta patches embedded k)

/-- C2: when every manifest entry has a local file with equal normalized
path and equal hash, the diff set is empty and the installer takes the
already-at-latest early return (no download or write is started).  The
local listing is a directory scan, so its normalized paths are assumed
pairwise distinct. -/
theorem uptodate_empty_diff (hashed : List MetaHashInfo) (localMeta : List LocalFileMeta)
    (patches : List PatchInfo) (embedded : List Embedded) (k : HashKey)
    (hnd : (localMeta.map (fun l => normalizePath l.file_name)).Nodup)
    (hcov : ∀ item ∈ hashed, ∃ l ∈ localMeta,
      normalizePath l.file_name = normalizePath item.file_name ∧
      some l.hash = item.hashOf k) :
    planDiff hashed localMeta patches embedded k = [] ∧
    runInstallPlan hashed localMeta patches embedded k = InstallOutcome.alreadyLatest := by
  have hmain : planDiff hashed localMeta patches embedded k = [] := by
    unfold planDiff
    rw [List.filterMap_eq_nil_iff]
    intro item hitem
    obtain ⟨l, hl, hnorm, hhash⟩ := hcov item hitem
    have hfs : (localMeta.find? (fun e =>
        decide (normalizePath e.file_name = normalizePath item.file_name))).isSome = true :=
      List.find?_isSome.mpr ⟨l, hl, decide_eq_true hnorm⟩
    obtain ⟨l', hl'⟩ := Option.isSome_iff_exists.mp hfs
    have hl'mem := List.mem_of_find?_eq_some hl'
    have hl'pred : normalizePath l'.file_name = normalizePath item.file_name := by
      have h := List.find?_some hl'
      exact of_decide_eq_true h
    have hl'l : l' = l :=
      List.inj_on_of_nodup_map hnd hl'mem hl (by rw [hl'pred, hnorm])
    rw [hl']
    simp only
    rw [if_pos (by rw [hl'l]; exact hhash)]
  refine ⟨hmain, ?_⟩
  unfold runInstallPlan
  rw [hmain]
  rfl

/-- Concrete manifest entry and matching local file for the C2 witness:
equal paths up to case, slash direction and a leading slash, equal md5. -/
def itemA : MetaHashInfo :=
  { file_name := "Dir\\App.EXE", size := 3, md5 := some "habc", xxh := none, installer := false }

/-- Local counterpart of itemA. -/
def locA : LocalFileMeta :=
  { file_name := "/dir/app.exe", size := 3, hash := "habc", unwritable := false }

/-- C2 witness: the one-entry manifest against its up-to-date local tree. -/
theorem uptodate_empty_diff_witness :
    ((([locA].map (fun l => normalizePath l.file_name)).Nodup) ∧
     (∀ item ∈ [itemA], ∃ l ∈ [locA],
       normalizePath l.file_name = normalizePath item.file_name ∧
       some l.hash = item.hashOf HashKey.md5)) ∧
    (planDiff [itemA] [locA] [] [] HashKey.md5 = [] ∧
     runInstallPlan [itemA] [locA] [] [] HashKey.md5 = InstallOutcome.alreadyLatest) :=
  ⟨⟨by decide, by decide⟩,
   uptodate_empty_diff [itemA] [locA] [] [] HashKey.md5 (by decide) (by decide)⟩

/-- The lpatch candidate predicate: the patch record's from-hash names some
payload embedded in the running installer. -/
def lpatchPred (embedded : List Embedded) (k : HashKey) (e : PatchInfo) : Prop :=
  ∃ em ∈ embedded, some em.name = e.fromHash.hashOf k

lemma find?_first {α : Type} (p : α → Bool) :
    ∀ (l : List α) (a : α), l.find? p = some a →
      p a = true ∧ ∃ l₁ l₂, l = l₁ ++ a :: l₂ ∧ ∀ x ∈ l₁, p x = false := by
  intro l
  induction l with
  | nil =>
      intro a h
      simp at h
  | cons x xs ih =>
      intro a h
      rw [List.find?_cons] at h
      cases hp : p x with
      | true =>
          rw [hp] at h
          simp only [Option.some.injEq] at h
          subst h
          exact ⟨hp, [], xs, rfl, by simp⟩
      | false =>
          rw [hp] at h
          obtain ⟨hpa, l₁, l₂, hsplit, hall⟩ := ih a h
          refine ⟨hpa, x :: l₁, l₂, by rw [hsplit]; rfl, ?_⟩
          intro y hy
          rcases List.mem_cons.mp hy with hy1 | hy2
          · rw [hy1]
            exact hp
          · exact hall y hy2

lemma planDiff_lpatch {hashed : List MetaHashInfo} {localMeta : List LocalFileMeta}
    {patches : List PatchInfo} {embedded : List Embedded} {k : HashKey}
    {t : UpdateTask} (ht : t ∈ planDiff hashed localMeta patches embedded k) :
    t.lpatch = patches.find? (fun e =>
      embedded.any (fun em => decide (some em.name = e.fromHash.hashOf k))) := by
  unfold planDiff at ht
  rw [List.mem_filterMap] at ht
  obtain ⟨item, -, hbody⟩ := ht
  cases hfind : localMeta.find? (fun e =>
      decide (normalizePath e.file_name = normalizePath item.file_name)) with
  | none =>
      rw [hfind] at hbody
      simp only [Option.some.injEq] at hbody
      rw [← hbody]
      rfl
  | some l =>
      rw [hfind] at hbody
      simp only at hbody
      by_cases hh : some l.hash = item.hashOf k
      · rw [if_pos hh] at hbody
        exact absurd hbody (by simp)
      · rw [if_neg hh] at hbody
        simp only [Option.some.injEq] at hbody
        rw [← hbody]
        rfl

/-- Concrete manifest entry for the C9 mismatch instance. -/
def item9 : MetaHashInfo :=
  { file_name := "t.bin", size := 1, md5 := some "target", xxh := none, installer := false }

/-- Concrete patch record whose from-hash names the embedded payload emb9
but whose to-hash differs from item9's hash. -/
def p9 : PatchInfo :=
  { file_name := "t.bin", size := 2, fromHash := ⟨some "embbase", none⟩,
    toHash := ⟨some "other", none⟩ }

/-- Concrete embedded payload named by p9's from-hash. -/
def emb9 : Embedded := ⟨"embbase", 0, 0, 4⟩

/-- The task the planner emits for item9 with no local file present. -/
def task9 : UpdateTask := mkDiffTask [p9] [emb9] HashKey.md5 item9 none

/-- C9: for every task the planner emits, the attached lpatch is the first
patch record of the manifest whose from-hash names any embedded payload;
and the selection ignores the record's to-hash, so there are inputs on
which the attached lpatch points at content different from the task's own
target hash. -/
theorem lpatch_selection (hashed : List MetaHashInfo) (localMeta : List LocalFileMeta)
    (patches : List PatchInfo) (embedded : List Embedded) (k : HashKey)
    (t : UpdateTask) (ht : t ∈ planDiff hashed localMeta patches embedded k) :
    (t.lpatch = none → ∀ p ∈ patches, ¬ lpatchPred embedded k p) ∧
    (∀ p, t.lpatch = some p → lpatchPred embedded k p ∧
      ∃ l₁ l₂, patches = l₁ ++ p :: l₂ ∧ ∀ q ∈ l₁, ¬ lpatchPred embedded k q) ∧
    (∃ hashed2 localMeta2 patches2 embedded2 k2,
      ∃ t2 ∈ planDiff hashed2 localMeta2 patches2 embedded2 k2, ∃ p2,
      t2.lpatch = some p2 ∧ p2.toHash.hashOf k2 ≠ t2.hashOf k2) := by
  have hlp := planDiff_lpatch ht
  refine ⟨?_, ?_, ?_⟩
  · intro hnone p hp hpred
    rw [hlp] at hnone
    rw [List.find?_eq_none] at hnone
    refine hnone p hp ?_
    obtain ⟨em, hem, hename⟩ := hpred
    exact List.any_eq_true.mpr ⟨em, hem, decide_eq_true hename⟩
  · intro p hpsome
    rw [hlp] at hpsome
    obtain ⟨hpa, l₁, l₂, hsplit, hall⟩ := find?_first _ patches p hpsome
    have hpred : lpatchPred embedded k p := by
      obtain ⟨em, hem, he⟩ := List.any_eq_true.mp hpa
      exact ⟨em, hem, of_decide_eq_true he⟩
    refine ⟨hpred, l₁, l₂, hsplit, ?_⟩
    intro q hq hqpred
    obtain ⟨em, hem, hename⟩ := hqpred
    have hfalse := hall q hq
    have htrue : (fun e => embedded.any (fun em =>
        decide (some em.name = e.fromHash.hashOf k))) q = true := by
      simp only
      exact List.any_eq_true.mpr ⟨em, hem, decide_eq_true hename⟩
    simp only at htrue
    rw [hfalse] at htrue
    exact Bool.false_ne_true htrue
  · exact ⟨[item9], [], [p9], [emb9], HashKey.md5, task9, by decide, p9, by decide, by decide⟩

/-- C9 witness: the concrete instance item9 / p9 / emb9. -/
theorem lpatch_selection_witness :
    (task9 ∈ planDiff [item9] [] [p9] [emb9] HashKey.md5) ∧
    ((task9.lpatch = none → ∀ p ∈ [p9], ¬ lpatchPred [emb9] HashKey.md5 p) ∧
     (∀ p, task9.lpatch = some p → lpatchPred [emb9] HashKey.md5 p ∧
       ∃ l₁ l₂, [p9] = l₁ ++ p :: l₂ ∧ ∀ q ∈ l₁, ¬ lpatchPred [emb9] HashKey.md5 q) ∧
     (∃ hashed2 localMeta2 patches2 embedded2 k2,
       ∃ t2 ∈ planDiff hashed2 localMeta2 patches2 embedded2 k2, ∃ p2,
       t2.lpatch = some p2 ∧ p2.toHash.hashOf k2 ≠ t2.hashOf k2)) :=
  ⟨by decide, lpatch_selection [item9] [] [p9] [emb9] HashKey.md5 task9 (by decide)⟩

/-! The scheduler threshold of DownloadTaskManager. -/

/-- One entry of the task list handed to the DownloadTaskManager
constructor: a plain task or a virtual merged group with its effective
size. -/
structure SchedFile where
  isMergedGroup : Bool
  size : Nat
  effectiveSize : Nat
deriving Repr, DecidableEq

/-- Size used by calculateOptimalThreshold: the merged group's
totalEffectiveSize, otherwise the file size. -/
def schedSizeOf (f : SchedFile) : Nat := if f.isMergedGroup then f.effectiveSize else f.size

instance : IsTotal Nat (fun a b => b ≤ a) := ⟨fun a b => Nat.le_total b a⟩

instance : IsTrans Nat (fun a b => b ≤ a) := ⟨fun _ _ _ h1 h2 => Nat.le_trans h2 h1⟩

/-- The descending sort((a, b) => b - a) of the sizes (stable sort on
numbers: stability is irrelevant to the values). -/
def descSizes (files : List SchedFile) : List Nat :=
  (files.map schedSizeOf).insertionSort (fun a b => b ≤ a)

/-- calculateOptimalThreshold.  Math.floor(length * 0.3) is length * 3 / 10
in natural division (exact for every reachable length, see the module
comment), and * 0.8 is * (4/5) in exact rationals. -/
def calculateOptimalThreshold (files : List SchedFile) : ℚ :=
  if files.length = 0 then 1024 * 1024
  else
    let sizes := descSizes files
    if sizes.length ≤ 3 then 0
    else
      let targetLargeFiles := min 4 (max 2 (sizes.length * 3 / 10))
      let thresholdIndex := min targetLargeFiles (sizes.length - 1)
      (sizes.getD thresholdIndex 0 : ℚ) * (4/5)

/-- The n-th largest task size, 1-based: entry n-1 of the descending-sorted
size list. -/
def kthLargest (files : List SchedFile) (n : Nat) : Nat := (descSizes files).getD (n - 1) 0

/-- Four plain tasks of sizes 400, 300, 200 and 100 bytes. -/
def files8 : List SchedFile :=
  [⟨false, 400, 0⟩, ⟨false, 300, 0⟩, ⟨false, 200, 0⟩, ⟨false, 100, 0⟩]

lemma descSizes_length (files : List SchedFile) :
    (descSizes files).length = files.length := by
  unfold descSizes
  rw [(List.perm_insertionSort _ _).length_eq, List.length_map]

/-- C8 counterexample: for four tasks of sizes 400, 300, 200, 100 the code
computes N = min(4, max(2, floor(4 * 0.3))) = 2 and returns 80% of
sizes[2] = 200, i.e. 160; the claimed 80% of the N-th (2nd) largest task
would be 80% of 300 = 240. -/
theorem threshold_cex :
    calculateOptimalThreshold files8 = 160 ∧
    min 4 (max 2 (files8.length * 3 / 10)) = 2 ∧
    kthLargest files8 2 = 300 ∧
    calculateOptimalThreshold files8 ≠ (kthLargest files8 2 : ℚ) * (4/5) := by
  have h1 : calculateOptimalThreshold files8 = 160 := by
    norm_num [calculateOptimalThreshold, descSizes, schedSizeOf, files8,
      List.insertionSort, List.orderedInsert]
  have h2 : kthLargest files8 2 = 300 := by
    norm_num [kthLargest, descSizes, schedSizeOf, files8,
      List.insertionSort, List.orderedInsert]
  refine ⟨h1, by decide, h2, ?_⟩
  rw [h1, h2]
  norm_num

/-- C8 (amended): the threshold is 1 MiB for an empty list, 0 for a
non-empty list of at most 3 tasks, and otherwise 80% of the size at 0-based
index min(N, count - 1) of the descending-sorted size list, that is of the
(min(N, count - 1) + 1)-th largest task, with N = min(4, max(2,
floor(count * 0.3))); merged groups are measured by their effective size;
the sorted size list is a descending-ordered permutation of the task
sizes. -/
theorem threshold_computation (files : List SchedFile) :
    (files.length = 0 → calculateOptimalThreshold files = 1024 * 1024) ∧
    (files.length ≠ 0 → files.length ≤ 3 → calculateOptimalThreshold files = 0) ∧
    (3 < files.length →
      calculateOptimalThreshold files =
        (kthLargest files (min (min 4 (max 2 (files.length * 3 / 10))) (files.length - 1) + 1) : ℚ)
          * (4/5)) ∧
    List.Sorted (fun a b => b ≤ a) (descSizes files) ∧
    (descSizes files).Perm (files.map schedSizeOf) := by
  refine ⟨?_, ?_, ?_, ?_, ?_⟩
  · intro h0
    unfold calculateOptimalThreshold
    rw [if_pos h0]
  · intro hne hle
    unfold calculateOptimalThreshold
    rw [if_neg hne, if_pos (by rw [descSizes_length]; exact hle)]
  · intro h3
    unfold calculateOptimalThreshold kthLargest
    rw [if_neg (by omega), if_neg (by rw [descSizes_length]; omega)]
    simp only [descSizes_length, Nat.add_sub_cancel]
  · exact List.sorted_insertionSort _ _
  · exact List.perm_insertionSort _ _

/-! The remote package-index reader (refreshDfsIndex): magic discovery in
the first fetched bytes, the five big-endian header fields, the derived
segment-region fetch, and the \\0INDEX entry resolution. -/

/-- The ASCII bytes of the magic string between the exclamation marks:
!KachinaInstaller!. -/
def magicBytes : List Nat :=
  [33, 75, 97, 99, 104, 105, 110, 97, 73, 110, 115, 116, 97, 108, 108, 101, 114, 33]

/-- String.indexOf over the fetched bytes (String.fromCharCode maps each
byte to the character of the same code, so substring search on that string
is subsequence search on the bytes): position of the first occurrence of
pat, none when absent. -/
def indexOfSeq (pat : List Nat) : List Nat → Option Nat
  | [] => if pat.isEmpty then some 0 else none
  | b :: rest =>
      if pat.isPrefixOf (b :: rest) then some 0
      else (indexOfSeq pat rest).map (· + 1)

/-- DataView.getUint32(i, false): the big-endian 32-bit read at byte offset
i; none models the RangeError thrown on an out-of-range read. -/
def readU32BE (bs : List Nat) (i : Nat) : Option Nat :=
  match bs[i]?, bs[i + 1]?, bs[i + 2]?, bs[i + 3]? with
  | some a, some b, some c, some d => some (((a * 256 + b) * 256 + c) * 256 + d)
  | _, _, _, _ => none

/-- The five header fields following the magic.  index_start is the
payload_start of the format. -/
structure DfsHeader where
  index_start : Nat
  config_sz : Nat
  theme_sz : Nat
  index_sz : Nat
  metadata_sz : Nat
deriving Repr, DecidableEq

/-- The header parse of refreshDfsIndex over the first fetched bytes: find
the magic (failing with the invalid-index error when absent), then read the
five 4-byte big-endian fields starting 18 bytes after the magic position. -/
def parseDfsHeader (pre : List Nat) : Except String DfsHeader :=
  match indexOfSeq magicBytes pre with
  | none => .error "Invalid remote index"
  | some h =>
      match readU32BE pre (h + 18), readU32BE pre (h + 18 + 4), readU32BE pre (h + 18 + 8),
            readU32BE pre (h + 18 + 12), readU32BE pre (h + 18 + 16) with
      | some a, some b, some c, some d, some e => .ok ⟨a, b, c, d, e⟩
      | _, _, _, _, _ => .error "RangeError"

/-- The (offset, size) arguments of the second get_http_with_range call:
offset index_start and size data_end - index_start with data_end =
index_start + index_sz + config_sz + theme_sz + metadata_sz. -/
def segmentFetchRegion (h : DfsHeader) : Nat × Nat :=
  (h.index_start,
   h.index_start + h.index_sz + h.config_sz + h.theme_sz + h.metadata_sz - h.index_start)

/-- One resolved entry of the \\0INDEX segment: the raw name bytes (the
TextDecoder step is a faithful renaming for the ASCII hash names), the
absolute offset index_start + offset, and the size. -/
structure IndexEntry where
  name : List Nat
  offset : Nat
  size : Nat
deriving Repr, DecidableEq

/-- The \\0INDEX payload loop of refreshDfsIndex, expressed on the
remaining bytes: read name_len (1 byte), the name, then size and offset as
big-endian u32, emit name mapped to (index_start + offset, size), and
continue after the entry; none models the RangeError of a truncated read
(which the enclosing try discards the whole segment on). -/
def parseIndexEntriesRem (index_start : Nat) : List Nat → Option (List IndexEntry)
  | [] => some []
  | name_len :: rest =>
      match readU32BE (rest.drop name_len) 0, readU32BE (rest.drop name_len) 4 with
      | some sz, some off =>
          match parseIndexEntriesRem index_start ((rest.drop name_len).drop 8) with
          | some es => some ({ name := rest.take name_len, offset := index_start + off, size := sz } :: es)
          | none => none
      | _, _ => none
termination_by l => l.length
decreasing_by
  simp only [List.length_drop, List.length_cons]
  omega

/-- Big-endian 4-byte encoding, the inverse of readU32BE at offset 0. -/
def u32be (n : Nat) : List Nat :=
  [n / 2 ^ 24 % 256, n / 2 ^ 16 % 256, n / 2 ^ 8 % 256, n % 256]

/-- One \\0INDEX record as the format lays it out:
name_len (u8), name, size (u32), offset (u32, relative to payload_start). -/
structure RawIndexEntry where
  name : List Nat
  size : Nat
  offset : Nat
deriving Repr, DecidableEq

/-- Serialization of one index record per the format. -/
def encodeIndexEntry (e : RawIndexEntry) : List Nat :=
  e.name.length :: (e.name ++ u32be e.size ++ u32be e.offset)

/-- Serialization of the whole \\0INDEX payload. -/
def encodeIndex (entries : List RawIndexEntry) : List Nat :=
  (entries.map encodeIndexEntry).flatten

/-- Representability of a record in the format: the name fits the u8
length prefix and size and offset fit u32. -/
def WfIndexEntry (e : RawIndexEntry) : Prop :=
  e.name.length < 256 ∧ e.size < 2 ^ 32 ∧ e.offset < 2 ^ 32

lemma readU32BE_append (l₁ l₂ : List Nat) (i : Nat) :
    readU32BE (l₁ ++ l₂) (l₁.length + i) = readU32BE l₂ i := by
  unfold readU32BE
  have h0 : (l₁ ++ l₂)[l₁.length + i]? = l₂[i]? := by
    rw [List.getElem?_append_right (by omega)]
    congr 1
    omega
  have h1 : (l₁ ++ l₂)[l₁.length + i + 1]? = l₂[i + 1]? := by
    rw [List.getElem?_append_right (by omega)]
    congr 1
    omega
  have h2 : (l₁ ++ l₂)[l₁.length + i + 2]? = l₂[i + 2]? := by
    rw [List.getElem?_append_right (by omega)]
    congr 1
    omega
  have h3 : (l₁ ++ l₂)[l₁.length + i + 3]? = l₂[i + 3]? := by
    rw [List.getElem?_append_right (by omega)]
    congr 1
    omega
  rw [h0, h1, h2, h3]

lemma readU32BE_u32be (n : Nat) (rest : List Nat) (hn : n < 2 ^ 32) :
    readU32BE (u32be n ++ rest) 0 = some n := by
  show readU32BE (n / 2 ^ 24 % 256 :: n / 2 ^ 16 % 256 :: n / 2 ^ 8 % 256 :: n % 256 :: rest) 0
    = some n
  unfold readU32BE
  simp only [List.getElem?_cons_zero, List.getElem?_cons_succ]
  congr 1
  omega

lemma readU32BE_at {pre : List Nat} (l₁ tail : List Nat) (v : Nat) (hv : v < 2 ^ 32)
    (hpre : pre = l₁ ++ (u32be v ++ tail)) {i : Nat} (hi : i = l₁.length) :
    readU32BE pre i = some v := by
  subst hpre
  subst hi
  have h := readU32BE_append l₁ (u32be v ++ tail) 0
  rw [Nat.add_zero] at h
  rw [h]
  exact readU32BE_u32be v tail hv

lemma parse_encode (s : Nat) : ∀ entries : List RawIndexEntry,
    (∀ e ∈ entries, WfIndexEntry e) →
    parseIndexEntriesRem s (encodeIndex entries) =
      some (entries.map fun e => { name := e.name, offset := s + e.offset, size := e.size }) := by
  intro entries
  induction entries with
  | nil =>
      intro _
      simp [parseIndexEntriesRem, encodeIndex]
  | cons e es ih =>
      intro hwf
      obtain ⟨-, hs, ho⟩ := hwf e (by simp)
      have hes := ih (fun x hx => hwf x (by simp [hx]))
      have henc : encodeIndex (e :: es)
          = e.name.length :: (e.name ++ (u32be e.size ++ (u32be e.offset ++ encodeIndex es))) := by
        have h1 : encodeIndex (e :: es) = encodeIndexEntry e ++ encodeIndex es := by
          show ((e :: es).map encodeIndexEntry).flatten = _
          rw [List.map_cons, List.flatten_cons]
          rfl
        rw [h1]
        unfold encodeIndexEntry
        simp [List.append_assoc]
      rw [henc]
      have hdrop : (e.name ++ (u32be e.size ++ (u32be e.offset ++ encodeIndex es))).drop e.name.length
          = u32be e.size ++ (u32be e.offset ++ encodeIndex es) := List.drop_left _ _
      have htake : (e.name ++ (u32be e.size ++ (u32be e.offset ++ encodeIndex es))).take e.name.length
          = e.name := List.take_left _ _
      have hr0 : readU32BE (u32be e.size ++ (u32be e.offset ++ encodeIndex es)) 0 = some e.size :=
        readU32BE_u32be _ _ hs
      have hr4 : readU32BE (u32be e.size ++ (u32be e.offset ++ encodeIndex es)) 4 = some e.offset := by
        have h4 : (4 : Nat) = (u32be e.size).length + 0 := by
          simp [u32be]
        rw [h4, readU32BE_append]
        exact readU32BE_u32be _ _ ho
      have hdrop8 : (u32be e.size ++ (u32be e.offset ++ encodeIndex es)).drop 8 = encodeIndex es := by
        show ((u32be e.size ++ (u32be e.offset ++ encodeIndex es)).drop 8) = encodeIndex es
        simp [u32be]
      rw [parseIndexEntriesRem]
      rw [hdrop, htake, hr0, hr4, hdrop8, hes]
      rfl

/-- C6: when the magic occurs in the fetched head bytes (at the position
String.indexOf reports) followed by five u32 big-endian fields, the reader
decodes them as payload_start, config_size, theme_size, index_size and
metadata_size; the follow-up fetch asks exactly for the region of length
config + theme + index + metadata starting at payload_start; every
well-formed \\0INDEX payload resolves each entry
(name_len, name, size, offset) to the mapping
name to (payload_start + offset, size); and when the magic is absent the
reader fails with the invalid-index error. -/
theorem remote_index_reader (pfx rest : List Nat) (v1 v2 v3 v4 v5 : Nat) (pre : List Nat)
    (hlayout : pre = pfx ++ magicBytes ++ u32be v1 ++ u32be v2 ++ u32be v3
      ++ u32be v4 ++ u32be v5 ++ rest)
    (hfind : indexOfSeq magicBytes pre = some pfx.length)
    (hv1 : v1 < 2 ^ 32) (hv2 : v2 < 2 ^ 32) (hv3 : v3 < 2 ^ 32)
    (hv4 : v4 < 2 ^ 32) (hv5 : v5 < 2 ^ 32) :
    parseDfsHeader pre = .ok ⟨v1, v2, v3, v4, v5⟩ ∧
    segmentFetchRegion ⟨v1, v2, v3, v4, v5⟩ = (v1, v2 + v3 + v4 + v5) ∧
    (∀ bytes, indexOfSeq magicBytes bytes = none →
      parseDfsHeader bytes = Except.error "Invalid remote index") ∧
    (∀ entries : List RawIndexEntry, (∀ e ∈ entries, WfIndexEntry e) →
      parseIndexEntriesRem v1 (encodeIndex entries) =
        some (entries.map fun e => { name := e.name, offset := v1 + e.offset, size := e.size })) := by
  have hmlen : magicBytes.length = 18 := by decide
  refine ⟨?_, ?_, ?_, fun entries hwf => parse_encode v1 entries hwf⟩
  · have hr1 : readU32BE pre (pfx.length + 18) = some v1 := by
      refine readU32BE_at (pfx ++ magicBytes)
        (u32be v2 ++ u32be v3 ++ u32be v4 ++ u32be v5 ++ rest) v1 hv1 ?_ ?_
      · rw [hlayout]
        simp [List.append_assoc]
      · simp [List.length_append, hmlen]
    have hr2 : readU32BE pre (pfx.length + 18 + 4) = some v2 := by
      refine readU32BE_at (pfx ++ magicBytes ++ u32be v1)
        (u32be v3 ++ u32be v4 ++ u32be v5 ++ rest) v2 hv2 ?_ ?_
      · rw [hlayout]
        simp [List.append_assoc]
      · simp [List.length_append, hmlen, u32be]
    have hr3 : readU32BE pre (pfx.length + 18 + 8) = some v3 := by
      refine readU32BE_at (pfx ++ magicBytes ++ u32be v1 ++ u32be v2)
        (u32be v4 ++ u32be v5 ++ rest) v3 hv3 ?_ ?_
      · rw [hlayout]
        simp [List.append_assoc]
      · simp [List.length_append, hmlen, u32be]
    have hr4 : readU32BE pre (pfx.length + 18 + 12) = some v4 := by
      refine readU32BE_at (pfx ++ magicBytes ++ u32be v1 ++ u32be v2 ++ u32be v3)
        (u32be v5 ++ rest) v4 hv4 ?_ ?_
      · rw [hlayout]
        simp [List.append_assoc]
      · simp [List.length_append, hmlen, u32be]
    have hr5 : readU32BE pre (pfx.length + 18 + 16) = some v5 := by
      refine readU32BE_at (pfx ++ magicBytes ++ u32be v1 ++ u32be v2 ++ u32be v3 ++ u32be v4)
        rest v5 hv5 ?_ ?_
      · rw [hlayout]
        simp [List.append_assoc]
      · simp [List.length_append, hmlen, u32be]
    simp only [parseDfsHeader, hfind, hr1, hr2, hr3, hr4, hr5]
  · unfold segmentFetchRegion
    simp only
    congr 1
    omega
  · intro bytes hnone
    unfold parseDfsHeader
    rw [hnone]

/-- The concrete head bytes of the C6 witness: one stray byte, the magic,
then the five fields 1000, 10, 20, 30, 40. -/
def preW : List Nat :=
  [7] ++ magicBytes ++ u32be 1000 ++ u32be 10 ++ u32be 20 ++ u32be 30 ++ u32be 40 ++ []

/-- C6 witness: the header parse, region derivation and index resolution at
the concrete bytes preW. -/
theorem remote_index_reader_witness :
    parseDfsHeader preW = .ok ⟨1000, 10, 20, 30, 40⟩ ∧
    segmentFetchRegion ⟨1000, 10, 20, 30, 40⟩ = (1000, 10 + 20 + 30 + 40) ∧
    (∀ bytes, indexOfSeq magicBytes bytes = none →
      parseDfsHeader bytes = Except.error "Invalid remote index") ∧
    (∀ entries : List RawIndexEntry, (∀ e ∈ entries, WfIndexEntry e) →
      parseIndexEntriesRem 1000 (encodeIndex entries) =
        some (entries.map fun e => { name := e.name, offset := 1000 + e.offset, size := e.size })) :=
  remote_index_reader [7] [] 1000 10 20 30 40 preW rfl (by decide)
    (by decide) (by decide) (by decide) (by decide) (by decide)

end Kachina
